import Mathlib

/-!
Verification of the bv-graph-wasm dependency-graph core:
the graph store, the topological sorter (`src/bv-graph-wasm/src/algorithms/topo.rs`),
the reachability engine and the dependency analyzer
(`src/bv-graph-wasm/src/reachability.rs`).

Machine integers (`usize`) are modelled as `Nat`; `usize` subtraction in the
sorter is modelled by truncating `Nat` subtraction (the proofs show the
decremented entry is always positive, so the truncation never fires on
reachable states); fallible results (`Option<Vec<usize>>`) are `Option (List Nat)`.
-/

/-- Modelled from the spec: `graph.rs` (the `DiGraph` graph store) is not part of
the sources; per §3/§4.1 the store is append-only, node indices form the
contiguous range `[0, n)`, and each `add_edge(u, v)` appends `v` to `u`'s
successor list and `u` to `v`'s predecessor list in insertion order, so the
store is represented by its node count together with the insertion-ordered
edge list. -/
structure DiGraph where
  n : Nat
  edges : List (Nat × Nat)
deriving DecidableEq

/-- Modelled from the spec: `len()` of the graph store (§4.1). -/
def DiGraph.len (g : DiGraph) : Nat := g.n

/-- Modelled from the spec: `successors_slice(u)` — the insertion-ordered list of
edge targets out of `u` (§4.1); query-facing, so an out-of-range `u` yields the
empty view. -/
def successors_slice (g : DiGraph) (u : Nat) : List Nat :=
  (g.edges.filter (fun e => e.1 = u)).map (fun e => e.2)

/-- Modelled from the spec: `predecessors_slice(v)` — the insertion-ordered list
of edge sources into `v` (§4.1); query-facing, so an out-of-range `v` yields the
empty view. -/
def predecessors_slice (g : DiGraph) (v : Nat) : List Nat :=
  (g.edges.filter (fun e => e.2 = v)).map (fun e => e.1)

/-- Modelled from the spec: `in_degree(v)` is the size of the predecessor list
(§4.1); duplicate edges each count (§3). -/
def in_degree (g : DiGraph) (v : Nat) : Nat :=
  (predecessors_slice g v).length

/-- Modelled from the spec: `out_degree(u)` is the size of the successor list (§4.1). -/
def out_degree (g : DiGraph) (u : Nat) : Nat :=
  (successors_slice g u).length

/-- The construction contract of §4.1/§7: `add_edge` endpoints are valid node
indices, so every stored edge has both endpoints below the node count. -/
def WF (g : DiGraph) : Prop := ∀ e ∈ g.edges, e.1 < g.n ∧ e.2 < g.n

instance (g : DiGraph) : Decidable (WF g) := by
  unfold WF; infer_instance

/-- The graph with every edge `(u, v)` replaced by `(v, u)` (same nodes), used
by the spec to characterize `reachable_to` (§8). -/
def reversedGraph (g : DiGraph) : DiGraph :=
  ⟨g.n, g.edges.map (fun e => (e.2, e.1))⟩

/-- The one-step edge relation of the graph. -/
def EdgeStep (g : DiGraph) (u v : Nat) : Prop := (u, v) ∈ g.edges

/-- `Reach g u v`: `v` is `u` itself or transitively reachable from `u` along
successor edges. -/
def Reach (g : DiGraph) (u v : Nat) : Prop :=
  Relation.ReflTransGen (EdgeStep g) u v

/-- The graph contains a cycle: some node reaches itself by a nonempty
directed path (a self-loop is a cycle of length one). -/
def HasCycle (g : DiGraph) : Prop :=
  ∃ v, Relation.TransGen (EdgeStep g) v v

/- ## Reachability engine (`reachability.rs`) -/

/-- The body of the BFS `while` loop's inner `for`: skip an already-visited
neighbor, otherwise mark it and push it onto the queue
(`reachability.rs:26-31` and `54-59`). -/
def bfsStep (st : List Bool × List Nat) (w : Nat) : List Bool × List Nat :=
  if st.1.getD w false then st
  else (st.1.set w true, st.2 ++ [w])

/-- The BFS `while let Some(v) = queue.pop_front()` loop of
`reachable_from`/`reachable_to` (`reachability.rs:24-32` and `52-60`),
parameterized by the adjacency view the two textually-identical loops read
(`successors_slice` resp. `predecessors_slice`).  The loop consumes one queue
element per iteration and every enqueue flips one visited flag, so `fuel = n`
(supplied by the callers) always outlasts the loop. -/
def bfsLoop (adj : Nat → List Nat) : Nat → List Bool → List Nat → List Nat → List Nat
  | 0, _, _, result => result
  | fuel+1, visited, queue, result =>
    match queue with
    | [] => result
    | v :: rest =>
      let st := (adj v).foldl bfsStep (visited, rest)
      bfsLoop adj fuel st.1 st.2 (result ++ [v])

/-- `reachable_from` (`reachability.rs:11-35`): BFS over successor edges seeded
at `source`; out-of-range `source` returns the empty vector. -/
def reachable_from (g : DiGraph) (source : Nat) : List Nat :=
  if source < g.n then
    bfsLoop (successors_slice g) g.n ((List.replicate g.n false).set source true)
      [source] []
  else []

/-- `reachable_to` (`reachability.rs:39-63`): BFS over predecessor edges seeded
at `target`; out-of-range `target` returns the empty vector. -/
def reachable_to (g : DiGraph) (target : Nat) : List Nat :=
  if target < g.n then
    bfsLoop (predecessors_slice g) g.n ((List.replicate g.n false).set target true)
      [target] []
  else []

/-- `blockers` (`reachability.rs:67-69`): the predecessor list of `node`. -/
def blockers (g : DiGraph) (node : Nat) : List Nat :=
  predecessors_slice g node

/-- `dependents` (`reachability.rs:73-75`): the successor list of `node`. -/
def dependents (g : DiGraph) (node : Nat) : List Nat :=
  successors_slice g node

/-- `is_actionable` (`reachability.rs:79-84`): all predecessors of `node` are
marked closed; an index absent from `closed_set` reads as not closed
(`closed_set.get(p).copied().unwrap_or(false)`). -/
def is_actionable (g : DiGraph) (node : Nat) (closed_set : List Bool) : Bool :=
  (predecessors_slice g node).all (fun p => closed_set.getD p false)

/-- `actionable_nodes` (`reachability.rs:88-93`): indices `0..n` filtered to
those not closed, then to those actionable. -/
def actionable_nodes (g : DiGraph) (closed_set : List Bool) : List Nat :=
  ((List.range g.n).filter (fun i => !(closed_set.getD i false))).filter
    (fun i => is_actionable g i closed_set)

/-- `open_blockers` (`reachability.rs:96-103`): predecessors of `node` not
marked closed, in predecessor order. -/
def open_blockers (g : DiGraph) (node : Nat) (closed_set : List Bool) : List Nat :=
  (predecessors_slice g node).filter (fun p => !(closed_set.getD p false))

/-- `open_blocker_count` (`reachability.rs:106-112`): the count of
not-closed predecessors, computed directly by `.filter(..).count()` on the
iterator without materializing a vector. -/
def open_blocker_count (g : DiGraph) (node : Nat) (closed_set : List Bool) : Nat :=
  (predecessors_slice g node).countP (fun p => !(closed_set.getD p false))

/- ## Topological sorter (`topo.rs`) -/

/-- The body of the Kahn inner `for &v in graph.successors_slice(u)` loop
(`topo.rs:49-54`): decrement the successor's in-degree and push it onto the
ready heap when the in-degree reaches zero.  `usize` subtraction is modelled
by truncating `Nat` subtraction; the loop invariants show the entry is
positive whenever it is decremented. -/
def relaxStep (st : List Nat × List Nat) (v : Nat) : List Nat × List Nat :=
  let d := st.1.getD v 0 - 1
  (st.1.set v d, if d = 0 then st.2 ++ [v] else st.2)

/-- The Kahn `while let Some(Reverse(u)) = heap.pop()` loop (`topo.rs:46-55`).
`BinaryHeap<Reverse<usize>>` is modelled by its multiset of entries: `pop`
removes the minimum.  Each iteration pops one heap entry and every push is
paid for by an in-degree decrement, so `fuel = n + m` (supplied by
`topological_sort`) always outlasts the loop. -/
def kahnLoop (g : DiGraph) : Nat → List Nat → List Nat → List Nat → List Nat
  | 0, _, _, order => order
  | fuel+1, inDeg, heap, order =>
    match heap.min? with
    | none => order
    | some u =>
      let st := (successors_slice g u).foldl relaxStep (inDeg, heap.erase u)
      kahnLoop g fuel st.1 st.2 (order ++ [u])

/-- `topological_sort` (`topo.rs:29-62`): Kahn's algorithm with a min-heap of
ready nodes; `Some order` when every node was emitted, `None` when a cycle
blocked some node. -/
def topological_sort (g : DiGraph) : Option (List Nat) :=
  if g.n = 0 then some [] else
    let inDeg := (List.range g.n).map (fun i => in_degree g i)
    let heap := (List.range g.n).filter (fun i => inDeg.getD i 0 = 0)
    let order := kahnLoop g (g.n + g.edges.length) inDeg heap []
    if order.length = g.n then some order else none

/-- `TopoSortResult` (`topo.rs:11-17`). -/
structure TopoSortResult where
  order : List Nat
  is_dag : Bool
deriving DecidableEq

/-- `is_dag` (`topo.rs:64-69`). -/
def is_dag (g : DiGraph) : Bool :=
  (topological_sort g).isSome

/-- `topological_sort_result` (`topo.rs:71-80`): detailed result; on a cycle
the order is empty, never a truncated prefix. -/
def topological_sort_result (g : DiGraph) : TopoSortResult :=
  match topological_sort g with
  | some order => ⟨order, true⟩
  | none => ⟨[], false⟩

/- ## Specification-side derived notions -/

/-- A node is ready with respect to the processed list `done`: in range, not
yet processed, and all of its predecessors processed. -/
def Ready (g : DiGraph) (done : List Nat) (v : Nat) : Prop :=
  v < g.n ∧ v ∉ done ∧ ∀ u ∈ predecessors_slice g v, u ∈ done

/-- The list of ready nodes with respect to `done`, in ascending index order. -/
def readyList (g : DiGraph) (done : List Nat) : List Nat :=
  (List.range g.n).filter
    (fun v => decide (v ∉ done) && (predecessors_slice g v).all (fun u => decide (u ∈ done)))

/-- The number of in-edges of `v` whose source is not yet in `done`. -/
def realDeg (g : DiGraph) (done : List Nat) (v : Nat) : Nat :=
  (predecessors_slice g v).countP (fun u => decide (u ∉ done))

/-- Number of unvisited entries of a BFS visited array. -/
def countFalse (l : List Bool) : Nat := l.countP (fun b => !b)

/-- The order produced so far respects the edges: every predecessor of the
node at position `i` appears among the first `i` emitted nodes. -/
def EdgeOK (g : DiGraph) (order : List Nat) : Prop :=
  ∀ i (hi : i < order.length),
    ∀ u ∈ predecessors_slice g (order.get ⟨i, hi⟩), u ∈ order.take i

/-- The Kahn loop as `topological_sort` invokes it on a nonempty graph (the
let-bound body of `topo.rs:36-44`). -/
def kahnRun (g : DiGraph) : List Nat :=
  kahnLoop g (g.n + g.edges.length) ((List.range g.n).map (fun i => in_degree g i))
    ((List.range g.n).filter
      (fun i => ((List.range g.n).map (fun i => in_degree g i)).getD i 0 = 0)) []

/- ## Basic lemmas about the store views -/

lemma mem_predecessors_slice (g : DiGraph) (v u : Nat) :
    u ∈ predecessors_slice g v ↔ (u, v) ∈ g.edges := by
  simp only [predecessors_slice, List.mem_map, List.mem_filter, decide_eq_true_eq]
  constructor
  · rintro ⟨⟨a, b⟩, ⟨hmem, hb⟩, ha⟩
    simp only at hb ha
    subst hb ha
    exact hmem
  · intro h
    exact ⟨(u, v), ⟨h, rfl⟩, rfl⟩

lemma mem_successors_slice (g : DiGraph) (u v : Nat) :
    v ∈ successors_slice g u ↔ (u, v) ∈ g.edges := by
  simp only [successors_slice, List.mem_map, List.mem_filter, decide_eq_true_eq]
  constructor
  · rintro ⟨⟨a, b⟩, ⟨hmem, ha⟩, hb⟩
    simp only at hb ha
    subst hb ha
    exact hmem
  · intro h
    exact ⟨(u, v), ⟨h, rfl⟩, rfl⟩

lemma predecessors_slice_of_out_of_range (g : DiGraph) (hwf : WF g) (v : Nat)
    (h : g.n ≤ v) : predecessors_slice g v = [] := by
  unfold predecessors_slice
  rw [List.filter_eq_nil_iff.mpr, List.map_nil]
  intro e he
  simp only [decide_eq_true_eq]
  intro hev
  exact absurd ((hwf e he).2) (by omega)

lemma successors_slice_of_out_of_range (g : DiGraph) (hwf : WF g) (u : Nat)
    (h : g.n ≤ u) : successors_slice g u = [] := by
  unfold successors_slice
  rw [List.filter_eq_nil_iff.mpr, List.map_nil]
  intro e he
  simp only [decide_eq_true_eq]
  intro heu
  exact absurd ((hwf e he).1) (by omega)

lemma getD_replicate_false (k m : Nat) :
    (List.replicate k false).getD m false = false := by
  induction k generalizing m with
  | zero => rfl
  | succ k ih =>
    cases m with
    | zero => rfl
    | succ m => simp [List.replicate, List.getD, ih m]

lemma getD_append_replicate_false (closed : List Bool) (k i : Nat) :
    (closed ++ List.replicate k false).getD i false = closed.getD i false := by
  rcases Nat.lt_or_ge i closed.length with h | h
  · exact List.getD_append _ _ _ _ h
  · rw [List.getD_append_right _ _ _ _ h, List.getD_eq_default _ _ h, getD_replicate_false]

/- ## Dependency analyzer: C7, C8, C9 -/

/-- C7: `open_blocker_count` is antitone in the closed set: if `closed'` marks
closed every node that `closed` does, the open-blocker count under `closed'`
is at most the one under `closed`, for every graph and node. -/
theorem open_blocker_count_antitone (g : DiGraph) (node : Nat)
    (closed closed' : List Bool)
    (h : ∀ i, closed.getD i false = true → closed'.getD i false = true) :
    open_blocker_count g node closed' ≤ open_blocker_count g node closed := by
  unfold open_blocker_count
  refine List.countP_mono_left fun p _ hp => ?_
  simp only [Bool.not_eq_true'] at hp ⊢
  by_contra hc
  rw [Bool.not_eq_false] at hc
  rw [h p hc] at hp
  exact Bool.noConfusion hp

/-- Witness for C7 at a concrete instance: graph `0→2, 1→2`, `closed = [true]`,
`closed' = [true, true]`. -/
theorem open_blocker_count_antitone_witness :
    open_blocker_count ⟨3, [(0, 2), (1, 2)]⟩ 2 [true, true] ≤
      open_blocker_count ⟨3, [(0, 2), (1, 2)]⟩ 2 [true] := by
  refine open_blocker_count_antitone _ _ _ _ ?_
  intro i hi
  match i with
  | 0 => rfl
  | Nat.succ m =>
    rw [List.getD_eq_default _ _ (by simp)] at hi
    exact Bool.noConfusion hi

/-- C8: `actionable_nodes(closed)` returns exactly the in-range nodes that are
not marked closed and whose predecessors are all marked closed, in ascending
index order; entries absent from the closed set (in particular when it is
shorter than the node count) are treated as not closed, so padding the closed
set with `false` entries never changes the result. -/
theorem actionable_nodes_correct (g : DiGraph) (closed_set : List Bool) :
    (∀ v, v ∈ actionable_nodes g closed_set ↔
        v < g.n ∧ closed_set.getD v false = false ∧
          ∀ u ∈ predecessors_slice g v, closed_set.getD u false = true) ∧
    List.Sorted (· < ·) (actionable_nodes g closed_set) ∧
    ∀ k, actionable_nodes g (closed_set ++ List.replicate k false) =
      actionable_nodes g closed_set := by
  refine ⟨?_, ?_, ?_⟩
  · intro v
    simp only [actionable_nodes, List.mem_filter, List.mem_range, is_actionable,
      List.all_eq_true, Bool.not_eq_true']
    constructor
    · rintro ⟨⟨h1, h2⟩, h3⟩
      exact ⟨h1, h2, fun u hu => h3 u hu⟩
    · rintro ⟨h1, h2, h3⟩
      exact ⟨⟨h1, h2⟩, fun u hu => h3 u hu⟩
  · exact List.Pairwise.sublist ((List.filter_sublist _).trans (List.filter_sublist _))
      (List.pairwise_lt_range g.n)
  · intro k
    simp only [actionable_nodes, is_actionable, getD_append_replicate_false]

/-- C9: the directly computed `open_blocker_count` equals the length of the
materialized `open_blockers` list. -/
theorem open_blocker_count_eq_length_open_blockers (g : DiGraph) (node : Nat)
    (closed_set : List Bool) :
    open_blocker_count g node closed_set = (open_blockers g node closed_set).length :=
  List.countP_eq_length_filter _ _

/- ## Reachability engine: C5 -/

lemma successors_slice_reversed (g : DiGraph) :
    successors_slice (reversedGraph g) = predecessors_slice g := by
  funext u
  simp only [successors_slice, predecessors_slice, reversedGraph]
  suffices h : ∀ l : List (Nat × Nat),
      ((l.map (fun e => (e.2, e.1))).filter (fun e => decide (e.1 = u))).map (fun e => e.2) =
        (l.filter (fun e => decide (e.2 = u))).map (fun e => e.1) by
    exact h g.edges
  intro l
  induction l with
  | nil => rfl
  | cons e t ih =>
    simp only [List.map_cons, List.filter_cons]
    by_cases he : e.2 = u <;> simp [he, ih]

/-- C5: `reachable_to` on `G` equals `reachable_from` on the graph with every
edge reversed (same nodes, each edge `(u, v)` replaced by `(v, u)`), at every
target index. -/
theorem reachable_to_eq_reachable_from_reversed (g : DiGraph) (t : Nat) :
    reachable_to g t = reachable_from (reversedGraph g) t := by
  unfold reachable_to reachable_from
  rw [successors_slice_reversed]
  rfl

/- ## BFS loop invariants (for C4, C10) -/

lemma getD_set_self_true (l : List Bool) (w : Nat) (hw : w < l.length) :
    (l.set w true).getD w false = true := by
  simp [List.getD, List.getElem?_set_self, hw]

lemma getD_set_ne_bool (l : List Bool) (w x : Nat) (h : x ≠ w) (b : Bool) :
    (l.set w b).getD x false = l.getD x false := by
  simp [List.getD, List.getElem?_set_ne (Ne.symm h)]

lemma countFalse_replicate (n : Nat) : countFalse (List.replicate n false) = n := by
  simp [countFalse, List.countP_replicate]

lemma countFalse_set_true : ∀ (l : List Bool) (w : Nat), w < l.length →
    l.getD w false = false → countFalse (l.set w true) + 1 = countFalse l := by
  intro l
  induction l with
  | nil => intro w hw; simp at hw
  | cons b t ih =>
    intro w hw hf
    cases w with
    | zero =>
      simp only [List.getD, List.getElem?_cons_zero, Option.getD_some] at hf
      subst hf
      simp [countFalse, List.countP_cons, List.set]
    | succ w =>
      have hw' : w < t.length := by simpa using hw
      have hf' : t.getD w false = false := by
        simpa [List.getD] using hf
      have := ih w hw' hf'
      simp only [List.set, countFalse, List.countP_cons]
      simp only [countFalse] at this
      omega

/-- One pass of the BFS inner `for` over the neighbor list `l`: the combined
effect on the visited array and the queue. -/
lemma bfs_fold_spec (n : Nat) :
    ∀ (l : List Nat) (visited : List Bool) (qs : List Nat),
    visited.length = n →
    (∀ w ∈ l, w < n) →
    qs.Nodup →
    (∀ w ∈ qs, visited.getD w false = true) →
    (l.foldl bfsStep (visited, qs)).1.length = n ∧
    (∀ x, visited.getD x false = true → (l.foldl bfsStep (visited, qs)).1.getD x false = true) ∧
    (∀ x, (l.foldl bfsStep (visited, qs)).1.getD x false = true →
      visited.getD x false = true ∨ x ∈ l) ∧
    (∀ x, x ∈ (l.foldl bfsStep (visited, qs)).2 ↔ x ∈ qs ∨
      ((l.foldl bfsStep (visited, qs)).1.getD x false = true ∧ visited.getD x false = false)) ∧
    (l.foldl bfsStep (visited, qs)).2.Nodup ∧
    countFalse (l.foldl bfsStep (visited, qs)).1 + (l.foldl bfsStep (visited, qs)).2.length =
      countFalse visited + qs.length ∧
    (∀ w ∈ l, (l.foldl bfsStep (visited, qs)).1.getD w false = true) := by
  intro l
  induction l with
  | nil =>
    intro visited qs hlen _ hqs hqsvis
    refine ⟨hlen, fun x hx => hx, fun x hx => Or.inl hx, ?_, hqs, rfl, by simp⟩
    intro x
    simp only [List.foldl_nil]
    constructor
    · exact fun hx => Or.inl hx
    · rintro (hx | ⟨ht, hf⟩)
      · exact hx
      · rw [ht] at hf; exact Bool.noConfusion hf
  | cons w l' ih =>
    intro visited qs hlen hl hqs hqsvis
    have hwn : w < n := hl w (List.mem_cons_self w l')
    have hstep : (w :: l').foldl bfsStep (visited, qs) =
        l'.foldl bfsStep (bfsStep (visited, qs) w) := by
      simp [List.foldl_cons]
    by_cases hv : visited.getD w false = true
    · -- already visited: the step is a no-op
      have hb : bfsStep (visited, qs) w = (visited, qs) := by
        simp only [bfsStep]
        rw [hv]
        simp
      rw [hstep, hb]
      obtain ⟨a1, a2, a3, a4, a5, a6, a7⟩ :=
        ih visited qs hlen (fun x hx => hl x (List.mem_cons_of_mem w hx)) hqs hqsvis
      refine ⟨a1, a2, ?_, a4, a5, a6, ?_⟩
      · intro x hx
        rcases a3 x hx with h | h
        · exact Or.inl h
        · exact Or.inr (List.mem_cons_of_mem w h)
      · intro x hx
        rcases List.mem_cons.mp hx with rfl | hx'
        · exact a2 x hv
        · exact a7 x hx'
    · -- unvisited: mark `w` and enqueue it
      have hvf : visited.getD w false = false := by
        cases h : visited.getD w false
        · rfl
        · exact absurd h hv
      have hb : bfsStep (visited, qs) w = (visited.set w true, qs ++ [w]) := by
        simp only [bfsStep]
        rw [hvf]
        simp
      rw [hstep, hb]
      have hwlen : w < visited.length := by omega
      have hset_len : (visited.set w true).length = n := by
        simp [List.length_set, hlen]
      have hwq : w ∉ qs := fun hmem => by
        rw [hqsvis w hmem] at hvf; exact Bool.noConfusion hvf
      have hqs' : (qs ++ [w]).Nodup := by
        rw [List.nodup_append]
        exact ⟨hqs, List.nodup_singleton w, fun x hx hx' => by
          rcases List.mem_singleton.mp hx' with rfl
          exact hwq hx⟩
      have hqsvis' : ∀ x ∈ qs ++ [w], (visited.set w true).getD x false = true := by
        intro x hx
        rcases List.mem_append.mp hx with hx' | hx'
        · have hne : x ≠ w := fun he => by subst he; exact hwq hx'
          rw [getD_set_ne_bool _ _ _ hne]
          exact hqsvis x hx'
        · rcases List.mem_singleton.mp hx' with rfl
          exact getD_set_self_true _ _ hwlen
      obtain ⟨a1, a2, a3, a4, a5, a6, a7⟩ :=
        ih (visited.set w true) (qs ++ [w]) hset_len
          (fun x hx => hl x (List.mem_cons_of_mem w hx)) hqs' hqsvis'
      have hmono : ∀ x, visited.getD x false = true →
          (visited.set w true).getD x false = true := by
        intro x hx
        by_cases hxw : x = w
        · subst hxw; exact getD_set_self_true _ _ hwlen
        · rw [getD_set_ne_bool _ _ _ hxw]; exact hx
      refine ⟨a1, fun x hx => a2 x (hmono x hx), ?_, ?_, a5, ?_, ?_⟩
      · -- new marks come from the neighbor list
        intro x hx
        rcases a3 x hx with h | h
        · by_cases hxw : x = w
          · exact Or.inr (hxw ▸ List.mem_cons_self w l')
          · rw [getD_set_ne_bool _ _ _ hxw] at h
            exact Or.inl h
        · exact Or.inr (List.mem_cons_of_mem w h)
      · -- queue characterization
        intro x
        rw [a4 x]
        constructor
        · rintro (hx | ⟨ht, hf⟩)
          · rcases List.mem_append.mp hx with hx' | hx'
            · exact Or.inl hx'
            · rcases List.mem_singleton.mp hx' with rfl
              exact Or.inr ⟨a2 x (getD_set_self_true _ _ hwlen), hvf⟩
          · by_cases hxw : x = w
            · subst hxw
              rw [getD_set_self_true _ _ hwlen] at hf
              exact Bool.noConfusion hf
            · rw [getD_set_ne_bool _ _ _ hxw] at hf
              exact Or.inr ⟨ht, hf⟩
        · rintro (hx | ⟨ht, hf⟩)
          · exact Or.inl (List.mem_append.mpr (Or.inl hx))
          · by_cases hxw : x = w
            · subst hxw
              exact Or.inl (List.mem_append.mpr (Or.inr (List.mem_singleton.mpr rfl)))
            · refine Or.inr ⟨ht, ?_⟩
              rw [getD_set_ne_bool _ _ _ hxw]
              exact hf
      · -- the running total of unvisited entries plus queue length is conserved
        have hcf : countFalse (visited.set w true) + 1 = countFalse visited :=
          countFalse_set_true visited w hwlen hvf
        rw [a6]
        simp only [List.length_append, List.length_singleton]
        omega
      · intro x hx
        rcases List.mem_cons.mp hx with rfl | hx'
        · exact a2 x (getD_set_self_true _ _ hwlen)
        · exact a7 x hx'

/-- The BFS loop only ever appends to its result accumulator. -/
lemma bfsLoop_exists_append (adj : Nat → List Nat) :
    ∀ (fuel : Nat) (visited : List Bool) (queue result : List Nat),
    ∃ t, bfsLoop adj fuel visited queue result = result ++ t := by
  intro fuel
  induction fuel with
  | zero => intro visited queue result; exact ⟨[], by simp [bfsLoop]⟩
  | succ fuel ih =>
    intro visited queue result
    cases queue with
    | nil => exact ⟨[], by simp [bfsLoop]⟩
    | cons v rest =>
      obtain ⟨t, ht⟩ := ih ((adj v).foldl bfsStep (visited, rest)).1
        ((adj v).foldl bfsStep (visited, rest)).2 (result ++ [v])
      refine ⟨v :: t, ?_⟩
      have hfinal : bfsLoop adj (fuel + 1) visited (v :: rest) result =
          bfsLoop adj fuel ((adj v).foldl bfsStep (visited, rest)).1
            ((adj v).foldl bfsStep (visited, rest)).2 (result ++ [v]) := rfl
      rw [hfinal, ht, List.append_assoc]
      rfl

/-- Master invariant lemma for the BFS loop: the emitted list is duplicate-free,
contains every already-visited node, is closed under the adjacency view, and
contains only in-range nodes reachable from the seed. -/
lemma bfsLoop_spec (adj : Nat → List Nat) (n s : Nat)
    (hadj : ∀ u, u < n → ∀ w ∈ adj u, w < n) :
    ∀ (fuel : Nat) (visited : List Bool) (queue result : List Nat),
    visited.length = n →
    countFalse visited + queue.length ≤ fuel →
    result.Nodup → queue.Nodup →
    (∀ v ∈ result, v ∉ queue) →
    (∀ v, visited.getD v false = true ↔ (v ∈ result ∨ v ∈ queue)) →
    (∀ v, v ∈ result ∨ v ∈ queue → v < n) →
    (∀ v, v ∈ result ∨ v ∈ queue → Relation.ReflTransGen (fun a b => b ∈ adj a) s v) →
    (∀ v ∈ result, ∀ w ∈ adj v, visited.getD w false = true) →
    (bfsLoop adj fuel visited queue result).Nodup ∧
    (∀ v, visited.getD v false = true → v ∈ bfsLoop adj fuel visited queue result) ∧
    (∀ v ∈ bfsLoop adj fuel visited queue result, ∀ w ∈ adj v,
      w ∈ bfsLoop adj fuel visited queue result) ∧
    (∀ v ∈ bfsLoop adj fuel visited queue result,
      v < n ∧ Relation.ReflTransGen (fun a b => b ∈ adj a) s v) := by
  intro fuel
  induction fuel with
  | zero =>
    intro visited queue result hlen hfuel hrn hqn hdisj hvis hrange hreach hclosed
    have hq : queue = [] := by
      cases queue with
      | nil => rfl
      | cons a l => simp only [List.length_cons] at hfuel; omega
    subst hq
    simp only [bfsLoop]
    refine ⟨hrn, ?_, ?_, ?_⟩
    · intro v hv
      rcases (hvis v).mp hv with h | h
      · exact h
      · exact absurd h (List.not_mem_nil v)
    · intro v hv w hw
      rcases (hvis w).mp (hclosed v hv w hw) with h | h
      · exact h
      · exact absurd h (List.not_mem_nil w)
    · intro v hv
      exact ⟨hrange v (Or.inl hv), hreach v (Or.inl hv)⟩
  | succ fuel ih =>
    intro visited queue result hlen hfuel hrn hqn hdisj hvis hrange hreach hclosed
    cases queue with
    | nil =>
      simp only [bfsLoop]
      refine ⟨hrn, ?_, ?_, ?_⟩
      · intro v hv
        rcases (hvis v).mp hv with h | h
        · exact h
        · exact absurd h (List.not_mem_nil v)
      · intro v hv w hw
        rcases (hvis w).mp (hclosed v hv w hw) with h | h
        · exact h
        · exact absurd h (List.not_mem_nil w)
      · intro v hv
        exact ⟨hrange v (Or.inl hv), hreach v (Or.inl hv)⟩
    | cons v rest =>
      have hvn : v < n := hrange v (Or.inr (List.mem_cons_self v rest))
      have hvq : v ∉ rest := (List.nodup_cons.mp hqn).1
      have hrest : rest.Nodup := (List.nodup_cons.mp hqn).2
      obtain ⟨a1, a2, a3, a4, a5, a6, a7⟩ :=
        bfs_fold_spec n (adj v) visited rest hlen (hadj v hvn) hrest
          (fun w hw => (hvis w).mpr (Or.inr (List.mem_cons_of_mem v hw)))
      have hvisv : visited.getD v false = true :=
        (hvis v).mpr (Or.inr (List.mem_cons_self v rest))
      have hvres : v ∉ result := fun hr => hdisj v hr (List.mem_cons_self v rest)
      have hfinal : bfsLoop adj (fuel + 1) visited (v :: rest) result =
          bfsLoop adj fuel ((adj v).foldl bfsStep (visited, rest)).1
            ((adj v).foldl bfsStep (visited, rest)).2 (result ++ [v]) := rfl
      rw [hfinal]
      -- establish the loop invariants for the next state
      have hfuel' : countFalse ((adj v).foldl bfsStep (visited, rest)).1 +
          ((adj v).foldl bfsStep (visited, rest)).2.length ≤ fuel := by
        simp only [List.length_cons] at hfuel
        omega
      have hrn' : (result ++ [v]).Nodup := by
        rw [List.nodup_append]
        exact ⟨hrn, List.nodup_singleton v, fun x hx hx' => by
          rcases List.mem_singleton.mp hx' with rfl
          exact hvres hx⟩
      have hdisj' : ∀ x ∈ result ++ [v], x ∉ ((adj v).foldl bfsStep (visited, rest)).2 := by
        intro x hx hmem
        have hxvis : visited.getD x false = true := by
          rcases List.mem_append.mp hx with hx' | hx'
          · exact (hvis x).mpr (Or.inl hx')
          · rcases List.mem_singleton.mp hx' with rfl
            exact hvisv
        rcases (a4 x).mp hmem with hxr | ⟨_, hxf⟩
        · rcases List.mem_append.mp hx with hx' | hx'
          · exact hdisj x hx' (List.mem_cons_of_mem v hxr)
          · rcases List.mem_singleton.mp hx' with rfl
            exact hvq hxr
        · rw [hxvis] at hxf
          exact Bool.noConfusion hxf
      have hvis' : ∀ x, ((adj v).foldl bfsStep (visited, rest)).1.getD x false = true ↔
          (x ∈ result ++ [v] ∨ x ∈ ((adj v).foldl bfsStep (visited, rest)).2) := by
        intro x
        constructor
        · intro hx
          by_cases hb : visited.getD x false = true
          · rcases (hvis x).mp hb with hxr | hxq
            · exact Or.inl (List.mem_append.mpr (Or.inl hxr))
            · rcases List.mem_cons.mp hxq with rfl | hxrest
              · exact Or.inl (List.mem_append.mpr (Or.inr (List.mem_singleton.mpr rfl)))
              · exact Or.inr ((a4 x).mpr (Or.inl hxrest))
          · have hbf : visited.getD x false = false := by
              cases h : visited.getD x false
              · rfl
              · exact absurd h hb
            exact Or.inr ((a4 x).mpr (Or.inr ⟨hx, hbf⟩))
        · rintro (hx | hx)
          · have : visited.getD x false = true := by
              rcases List.mem_append.mp hx with hx' | hx'
              · exact (hvis x).mpr (Or.inl hx')
              · rcases List.mem_singleton.mp hx' with rfl
                exact hvisv
            exact a2 x this
          · rcases (a4 x).mp hx with hxr | ⟨hxt, _⟩
            · exact a2 x ((hvis x).mpr (Or.inr (List.mem_cons_of_mem v hxr)))
            · exact hxt
      have hrange' : ∀ x, (x ∈ result ++ [v] ∨ x ∈ ((adj v).foldl bfsStep (visited, rest)).2) →
          x < n := by
        rintro x (hx | hx)
        · rcases List.mem_append.mp hx with hx' | hx'
          · exact hrange x (Or.inl hx')
          · rcases List.mem_singleton.mp hx' with rfl
            exact hvn
        · rcases (a4 x).mp hx with hxr | ⟨hxt, hxf⟩
          · exact hrange x (Or.inr (List.mem_cons_of_mem v hxr))
          · rcases a3 x hxt with hv' | hadjm
            · rw [hv'] at hxf; exact Bool.noConfusion hxf
            · exact hadj v hvn x hadjm
      have hreach' : ∀ x, (x ∈ result ++ [v] ∨ x ∈ ((adj v).foldl bfsStep (visited, rest)).2) →
          Relation.ReflTransGen (fun a b => b ∈ adj a) s x := by
        rintro x (hx | hx)
        · rcases List.mem_append.mp hx with hx' | hx'
          · exact hreach x (Or.inl hx')
          · rw [List.mem_singleton] at hx'
            rw [hx']
            exact hreach v (Or.inr (List.mem_cons_self v rest))
        · rcases (a4 x).mp hx with hxr | ⟨hxt, hxf⟩
          · exact hreach x (Or.inr (List.mem_cons_of_mem v hxr))
          · rcases a3 x hxt with hv' | hadjm
            · rw [hv'] at hxf; exact Bool.noConfusion hxf
            · exact Relation.ReflTransGen.tail
                (hreach v (Or.inr (List.mem_cons_self v rest))) hadjm
      have hclosed' : ∀ x ∈ result ++ [v], ∀ w ∈ adj x,
          ((adj v).foldl bfsStep (visited, rest)).1.getD w false = true := by
        intro x hx w hw
        rcases List.mem_append.mp hx with hx' | hx'
        · exact a2 w (hclosed x hx' w hw)
        · rcases List.mem_singleton.mp hx' with rfl
          exact a7 w hw
      obtain ⟨b1, b2, b3, b4⟩ := ih ((adj v).foldl bfsStep (visited, rest)).1
        ((adj v).foldl bfsStep (visited, rest)).2 (result ++ [v])
        a1 hfuel' hrn' a5 hdisj' hvis' hrange' hreach' hclosed'
      exact ⟨b1, fun x hx => b2 x (a2 x hx), b3, b4⟩

/-- The successor-adjacency step relation generates exactly `Reach`. -/
lemma reach_iff_adj (g : DiGraph) (s v : Nat) :
    Relation.ReflTransGen (fun a b => b ∈ successors_slice g a) s v ↔ Reach g s v := by
  constructor <;> intro h
  · exact Relation.ReflTransGen.mono (fun a b hab => (mem_successors_slice g a b).mp hab) h
  · exact Relation.ReflTransGen.mono (fun a b hab => (mem_successors_slice g a b).mpr hab) h

/-- C4: for an in-range source, `reachable_from` returns a duplicate-free list
containing exactly the source and every node transitively reachable from it
along successor edges (hence it contains the source and has length at least
one); for an out-of-range source it returns the empty list. -/
theorem reachable_from_correct (g : DiGraph) (hwf : WF g) (source : Nat) :
    (source < g.n →
      (reachable_from g source).Nodup ∧
      (∀ v, v ∈ reachable_from g source ↔ Reach g source v) ∧
      source ∈ reachable_from g source ∧
      1 ≤ (reachable_from g source).length) ∧
    (g.n ≤ source → reachable_from g source = []) := by
  constructor
  · intro hs
    have hadj : ∀ u, u < g.n → ∀ w ∈ successors_slice g u, w < g.n := fun u _ w hw =>
      (hwf _ ((mem_successors_slice g u w).mp hw)).2
    have hsrep : source < (List.replicate g.n false).length := by simpa using hs
    have hvis0 : ∀ v, ((List.replicate g.n false).set source true).getD v false = true ↔
        (v ∈ ([] : List Nat) ∨ v ∈ [source]) := by
      intro v
      by_cases hv : v = source
      · subst hv
        rw [getD_set_self_true _ _ hsrep]
        simp
      · rw [getD_set_ne_bool _ _ _ hv, getD_replicate_false]
        simp [hv]
    have hfuel : countFalse ((List.replicate g.n false).set source true) +
        ([source] : List Nat).length ≤ g.n := by
      have h1 := countFalse_set_true (List.replicate g.n false) source hsrep
        (getD_replicate_false _ _)
      rw [countFalse_replicate] at h1
      simp only [List.length_singleton]
      omega
    obtain ⟨b1, b2, b3, b4⟩ := bfsLoop_spec (successors_slice g) g.n source hadj g.n
      ((List.replicate g.n false).set source true) [source] []
      (by simp) hfuel List.nodup_nil (List.nodup_singleton _) (by simp) hvis0
      (by rintro v (h | h)
          · exact absurd h (List.not_mem_nil v)
          · rcases List.mem_singleton.mp h with rfl; exact hs)
      (by rintro v (h | h)
          · exact absurd h (List.not_mem_nil v)
          · rcases List.mem_singleton.mp h with rfl; exact Relation.ReflTransGen.refl)
      (by simp)
    have hdef : reachable_from g source =
        bfsLoop (successors_slice g) g.n ((List.replicate g.n false).set source true)
          [source] [] := by
      unfold reachable_from
      rw [if_pos hs]
    rw [hdef]
    have hmem : ∀ v, v ∈ bfsLoop (successors_slice g) g.n
        ((List.replicate g.n false).set source true) [source] [] ↔ Reach g source v := by
      intro v
      constructor
      · intro hv
        exact (reach_iff_adj g source v).mp (b4 v hv).2
      · intro hv
        rw [← reach_iff_adj] at hv
        induction hv with
        | refl => exact b2 source ((hvis0 source).mpr (Or.inr (List.mem_singleton.mpr rfl)))
        | tail _ hstep ih' => exact b3 _ ih' _ hstep
    have hsrc : source ∈ bfsLoop (successors_slice g) g.n
        ((List.replicate g.n false).set source true) [source] [] :=
      (hmem source).mpr Relation.ReflTransGen.refl
    exact ⟨b1, hmem, hsrc, List.length_pos.mpr (List.ne_nil_of_mem hsrc)⟩
  · intro h
    unfold reachable_from
    rw [if_neg (by omega)]

/-- Witness for C4 at the diamond graph `0→1, 0→2, 1→3, 2→3` with source 0. -/
theorem reachable_from_correct_witness :
    0 ∈ reachable_from ⟨4, [(0, 1), (0, 2), (1, 3), (2, 3)]⟩ 0 :=
  ((reachable_from_correct ⟨4, [(0, 1), (0, 2), (1, 3), (2, 3)]⟩ (by decide) 0).1
    (by decide)).2.2.1

/-- C10: for an in-range index the first emitted element of `reachable_from`
is the source itself, and the first emitted element of `reachable_to` is the
target itself. -/
theorem reachable_seed_emitted_first (g : DiGraph) (s t : Nat) :
    (s < g.n → (reachable_from g s).head? = some s) ∧
    (t < g.n → (reachable_to g t).head? = some t) := by
  constructor
  · intro hs
    unfold reachable_from
    rw [if_pos hs]
    obtain ⟨m, hm⟩ : ∃ m, g.n = m + 1 := ⟨g.n - 1, by omega⟩
    rw [hm]
    obtain ⟨tl, htl⟩ := bfsLoop_exists_append (successors_slice g) m
      ((successors_slice g s).foldl bfsStep ((List.replicate (m + 1) false).set s true, [])).1
      ((successors_slice g s).foldl bfsStep ((List.replicate (m + 1) false).set s true, [])).2
      [s]
    have hstep : bfsLoop (successors_slice g) (m + 1)
        ((List.replicate (m + 1) false).set s true) [s] [] =
        bfsLoop (successors_slice g) m
          ((successors_slice g s).foldl bfsStep
            ((List.replicate (m + 1) false).set s true, [])).1
          ((successors_slice g s).foldl bfsStep
            ((List.replicate (m + 1) false).set s true, [])).2 [s] := rfl
    rw [hstep, htl]
    rfl
  · intro ht
    unfold reachable_to
    rw [if_pos ht]
    obtain ⟨m, hm⟩ : ∃ m, g.n = m + 1 := ⟨g.n - 1, by omega⟩
    rw [hm]
    obtain ⟨tl, htl⟩ := bfsLoop_exists_append (predecessors_slice g) m
      ((predecessors_slice g t).foldl bfsStep ((List.replicate (m + 1) false).set t true, [])).1
      ((predecessors_slice g t).foldl bfsStep ((List.replicate (m + 1) false).set t true, [])).2
      [t]
    have hstep : bfsLoop (predecessors_slice g) (m + 1)
        ((List.replicate (m + 1) false).set t true) [t] [] =
        bfsLoop (predecessors_slice g) m
          ((predecessors_slice g t).foldl bfsStep
            ((List.replicate (m + 1) false).set t true, [])).1
          ((predecessors_slice g t).foldl bfsStep
            ((List.replicate (m + 1) false).set t true, [])).2 [t] := rfl
    rw [hstep, htl]
    rfl

/-- Witness for C10 at a one-node graph. -/
theorem reachable_seed_emitted_first_witness :
    (reachable_from ⟨1, []⟩ 0).head? = some 0 :=
  (reachable_seed_emitted_first ⟨1, []⟩ 0 0).1 (by decide)

/-- Counterexample to C6 as stated: on the one-node edgeless graph, the
out-of-range query `is_actionable(5, [])` returns `true` (vacuously — the
node has no predecessors), not the claimed false result. -/
theorem is_actionable_out_of_range_counterexample :
    ¬ (is_actionable ⟨1, []⟩ 5 [] = false) := by decide

/-- C6 as amended: on every well-formed graph, an out-of-range index makes
each query degrade gracefully rather than fail: `reachable_from` and
`reachable_to` return the empty sequence, `blockers` and `dependents` return
the empty list, and `is_actionable` returns true (vacuously, since an
out-of-range node has no predecessors). -/
theorem out_of_range_queries (g : DiGraph) (hwf : WF g) (idx : Nat)
    (h : g.n ≤ idx) (closed_set : List Bool) :
    reachable_from g idx = [] ∧ reachable_to g idx = [] ∧
    blockers g idx = [] ∧ dependents g idx = [] ∧
    is_actionable g idx closed_set = true := by
  have hpred : predecessors_slice g idx = [] :=
    predecessors_slice_of_out_of_range g hwf idx h
  have hsucc : successors_slice g idx = [] :=
    successors_slice_of_out_of_range g hwf idx h
  refine ⟨?_, ?_, hpred, hsucc, ?_⟩
  · unfold reachable_from
    rw [if_neg (by omega)]
  · unfold reachable_to
    rw [if_neg (by omega)]
  · unfold is_actionable
    rw [hpred]
    rfl

/-- Witness for C6 (amended) at the one-node edgeless graph and index 5. -/
theorem out_of_range_queries_witness :
    reachable_from ⟨1, []⟩ 5 = [] ∧ reachable_to ⟨1, []⟩ 5 = [] ∧
    blockers ⟨1, []⟩ 5 = [] ∧ dependents ⟨1, []⟩ 5 = [] ∧
    is_actionable ⟨1, []⟩ 5 [] = true :=
  out_of_range_queries ⟨1, []⟩ (by decide) 5 (by decide) []

/- ## Kahn loop invariants (for C1, C2, C3) -/

lemma nat_min?_eq_some_iff {xs : List Nat} {a : Nat} :
    xs.min? = some a ↔ a ∈ xs ∧ ∀ b ∈ xs, a ≤ b :=
  List.min?_eq_some_iff (fun x => le_refl x) (fun x y => min_choice x y)
    (fun x y z => le_min_iff)

lemma nat_min?_congr {l l' : List Nat} (h : ∀ x, x ∈ l ↔ x ∈ l') :
    l.min? = l'.min? := by
  cases hl : l.min? with
  | none =>
    rw [List.min?_eq_none_iff] at hl
    subst hl
    symm
    rw [List.min?_eq_none_iff, List.eq_nil_iff_forall_not_mem]
    intro a ha
    exact (List.not_mem_nil a) ((h a).mpr ha)
  | some a =>
    rw [nat_min?_eq_some_iff] at hl
    symm
    rw [nat_min?_eq_some_iff]
    exact ⟨(h a).mp hl.1, fun b hb => hl.2 b ((h b).mpr hb)⟩

lemma getD_map_range (f : Nat → Nat) (n i : Nat) (h : i < n) :
    ((List.range n).map f).getD i 0 = f i := by
  simp [List.getD, List.getElem?_map, List.getElem?_range, h]

lemma getD_nat_set_self (l : List Nat) (w : Nat) (hw : w < l.length) (x : Nat) :
    (l.set w x).getD w 0 = x := by
  simp [List.getD, List.getElem?_set_self, hw]

lemma getD_nat_set_ne (l : List Nat) (w y x : Nat) (h : y ≠ w) :
    (l.set w x).getD y 0 = l.getD y 0 := by
  simp [List.getD, List.getElem?_set_ne (Ne.symm h)]

lemma sum_set_sub_one : ∀ (l : List Nat) (w : Nat), w < l.length → 1 ≤ l.getD w 0 →
    (l.set w (l.getD w 0 - 1)).sum + 1 = l.sum := by
  intro l
  induction l with
  | nil => intro w hw; simp at hw
  | cons a t ih =>
    intro w hw h1
    cases w with
    | zero =>
      have hd : (a :: t).getD 0 0 = a := rfl
      rw [hd] at h1 ⊢
      simp only [List.set, List.sum_cons]
      omega
    | succ w =>
      have hd : (a :: t).getD (w + 1) 0 = t.getD w 0 := rfl
      have hw' : w < t.length := by simpa using hw
      rw [hd] at h1 ⊢
      have := ih w hw' h1
      simp only [List.set, List.sum_cons]
      omega

lemma count_pred_eq_count_succ (g : DiGraph) (u v : Nat) :
    (predecessors_slice g v).count u = (successors_slice g u).count v := by
  unfold predecessors_slice successors_slice
  suffices h : ∀ l : List (Nat × Nat),
      ((l.filter (fun e => decide (e.2 = v))).map (fun e => e.1)).count u =
        ((l.filter (fun e => decide (e.1 = u))).map (fun e => e.2)).count v by
    exact h g.edges
  intro l
  induction l with
  | nil => rfl
  | cons e t ih =>
    by_cases h1 : e.1 = u <;> by_cases h2 : e.2 = v <;>
      simp [List.filter_cons, h1, h2, List.count_cons, ih]

lemma realDeg_nil (g : DiGraph) (v : Nat) : realDeg g [] v = in_degree g v := by
  unfold realDeg in_degree
  have h : (predecessors_slice g v).countP (fun u => decide (u ∉ ([] : List Nat))) =
      (predecessors_slice g v).countP (fun u => true) :=
    List.countP_congr (fun x _ => by simp)
  rw [h, List.countP_true]

lemma realDeg_zero_iff (g : DiGraph) (done : List Nat) (v : Nat) :
    realDeg g done v = 0 ↔ ∀ u ∈ predecessors_slice g v, u ∈ done := by
  unfold realDeg
  simp [List.countP_eq_zero]

lemma realDeg_append (g : DiGraph) (done : List Nat) (u : Nat) (hu : u ∉ done) (v : Nat) :
    realDeg g done v = realDeg g (done ++ [u]) v + (predecessors_slice g v).count u := by
  unfold realDeg
  suffices h : ∀ l : List Nat, l.countP (fun p => decide (p ∉ done)) =
      l.countP (fun p => decide (p ∉ done ++ [u])) + l.count u by
    exact h _
  intro l
  induction l with
  | nil => rfl
  | cons a t ih =>
    rw [List.countP_cons, List.countP_cons]
    by_cases hau : a = u
    · subst hau
      have d1 : decide (a ∉ done) = true := by simp [hu]
      have d2 : decide (a ∉ done ++ [a]) = false := by simp
      rw [d1, d2, List.count_cons_self, if_pos rfl, if_neg (by simp)]
      omega
    · have hiff : (a ∉ done ++ [u]) ↔ (a ∉ done) := by simp [hau]
      rw [decide_eq_decide.mpr hiff, List.count_cons_of_ne (Ne.symm hau)]
      omega

lemma mem_readyList (g : DiGraph) (done : List Nat) (v : Nat) :
    v ∈ readyList g done ↔ Ready g done v := by
  unfold readyList Ready
  simp [List.mem_filter, List.mem_range, List.all_eq_true]

lemma exists_get_of_mem_take : ∀ (l : List Nat) (j u : Nat), u ∈ l.take j →
    ∃ i, ∃ hi : i < l.length, i < j ∧ l.get ⟨i, hi⟩ = u := by
  intro l
  induction l with
  | nil => intro j u h; simp at h
  | cons a t ih =>
    intro j u h
    cases j with
    | zero => simp at h
    | succ j =>
      rw [List.take_succ_cons] at h
      rcases List.mem_cons.mp h with rfl | h'
      · exact ⟨0, by simp, Nat.succ_pos j, rfl⟩
      · obtain ⟨i, hi, hij, hget⟩ := ih j u h'
        exact ⟨i + 1, by simpa using Nat.succ_lt_succ hi, Nat.succ_lt_succ hij, hget⟩

lemma indexOf_lt_of_mem_take : ∀ (l : List Nat) (j u : Nat), u ∈ l.take j →
    l.indexOf u < j := by
  intro l
  induction l with
  | nil => intro j u h; simp at h
  | cons a t ih =>
    intro j u h
    cases j with
    | zero => simp at h
    | succ j =>
      rw [List.take_succ_cons] at h
      by_cases hau : u = a
      · subst hau
        simp [List.indexOf_cons_self]
      · rcases List.mem_cons.mp h with rfl | h'
        · exact absurd rfl hau
        · rw [List.indexOf_cons_ne _ (Ne.symm hau)]
          exact Nat.succ_lt_succ (ih j u h')

lemma length_le_of_nodup_range (R : List Nat) (n : Nat) (hn : R.Nodup)
    (hsub : ∀ v ∈ R, v < n) : R.length ≤ n := by
  classical
  have hsubF : R.toFinset ⊆ Finset.range n := by
    intro v hv
    rw [List.mem_toFinset] at hv
    exact Finset.mem_range.mpr (hsub v hv)
  have := Finset.card_le_card hsubF
  rwa [List.toFinset_card_of_nodup hn, Finset.card_range] at this

lemma mem_of_nodup_length_range (R : List Nat) (n : Nat) (hn : R.Nodup)
    (hsub : ∀ v ∈ R, v < n) (hlen : R.length = n) : ∀ v, v < n → v ∈ R := by
  classical
  have hsubF : R.toFinset ⊆ Finset.range n := by
    intro v hv
    rw [List.mem_toFinset] at hv
    exact Finset.mem_range.mpr (hsub v hv)
  have hcard : (Finset.range n).card ≤ R.toFinset.card := by
    rw [List.toFinset_card_of_nodup hn, hlen, Finset.card_range]
  have heq := Finset.eq_of_subset_of_card_le hsubF hcard
  intro v hv
  have : v ∈ R.toFinset := by rw [heq]; exact Finset.mem_range.mpr hv
  rwa [List.mem_toFinset] at this

/-- If every node of a nonempty finite set has an in-edge from within the set,
the graph has a cycle (follow predecessors and apply the pigeonhole
principle). -/
lemma cycle_of_no_source (g : DiGraph) (S : Finset Nat) (hne : S.Nonempty)
    (hstep : ∀ w ∈ S, ∃ u ∈ S, EdgeStep g u w) : HasCycle g := by
  classical
  obtain ⟨v₀, hv₀⟩ := hne
  have hF : ∀ x : {y // y ∈ S}, ∃ u, u ∈ S ∧ EdgeStep g u x.1 := by
    intro x
    obtain ⟨u, hu, he⟩ := hstep x.1 x.2
    exact ⟨u, hu, he⟩
  choose f hf1 hf2 using hF
  have hedge : ∀ k : Nat,
      EdgeStep g (((fun x => (⟨f x, hf1 x⟩ : {y // y ∈ S}))^[k + 1] ⟨v₀, hv₀⟩).1)
        (((fun x => (⟨f x, hf1 x⟩ : {y // y ∈ S}))^[k] ⟨v₀, hv₀⟩).1) := by
    intro k
    rw [Function.iterate_succ_apply']
    exact hf2 _
  have htrans : ∀ j i, i < j →
      Relation.TransGen (EdgeStep g)
        (((fun x => (⟨f x, hf1 x⟩ : {y // y ∈ S}))^[j] ⟨v₀, hv₀⟩).1)
        (((fun x => (⟨f x, hf1 x⟩ : {y // y ∈ S}))^[i] ⟨v₀, hv₀⟩).1) := by
    intro j
    induction j with
    | zero => intro i h; exact absurd h (Nat.not_lt_zero i)
    | succ j ih =>
      intro i hij
      have hcase : i < j ∨ i = j := by omega
      rcases hcase with h | h
      · exact Relation.TransGen.head (hedge j) (ih i h)
      · subst h
        exact Relation.TransGen.single (hedge i)
  have hcard : Fintype.card {y // y ∈ S} < Fintype.card (Fin (S.card + 1)) := by
    simp [Fintype.card_coe]
  obtain ⟨a, b, hab, heq⟩ := Fintype.exists_ne_map_eq_of_card_lt
    (fun k : Fin (S.card + 1) => (fun x => (⟨f x, hf1 x⟩ : {y // y ∈ S}))^[k.1] ⟨v₀, hv₀⟩)
    hcard
  have hval : (((fun x => (⟨f x, hf1 x⟩ : {y // y ∈ S}))^[a.1] ⟨v₀, hv₀⟩).1) =
      (((fun x => (⟨f x, hf1 x⟩ : {y // y ∈ S}))^[b.1] ⟨v₀, hv₀⟩).1) :=
    congrArg Subtype.val heq
  rcases Nat.lt_or_ge a.1 b.1 with h | h
  · have htg := htrans b.1 a.1 h
    rw [hval] at htg
    exact ⟨_, htg⟩
  · have hba : b.1 < a.1 := by
      have : a.1 ≠ b.1 := fun hh => hab (Fin.ext hh)
      omega
    have htg := htrans a.1 b.1 hba
    rw [← hval] at htg
    exact ⟨_, htg⟩

/-- One pass of the Kahn inner `for` over the successor list `l` of the node
just appended to `order'`: the combined effect on the in-degree vector and the
ready heap. -/
lemma relax_fold_spec (g : DiGraph) (order' : List Nat) :
    ∀ (l : List Nat) (inDeg heap : List Nat),
    inDeg.length = g.n →
    (∀ v, v < g.n → inDeg.getD v 0 = realDeg g order' v + l.count v) →
    heap.Nodup →
    (∀ v, v ∈ heap ↔ (v < g.n ∧ v ∉ order' ∧ inDeg.getD v 0 = 0)) →
    (∀ w ∈ l, w < g.n ∧ w ∉ order') →
    (l.foldl relaxStep (inDeg, heap)).1.length = g.n ∧
    (∀ v, v < g.n → (l.foldl relaxStep (inDeg, heap)).1.getD v 0 = realDeg g order' v) ∧
    (l.foldl relaxStep (inDeg, heap)).2.Nodup ∧
    (∀ v, v ∈ (l.foldl relaxStep (inDeg, heap)).2 ↔
      (v < g.n ∧ v ∉ order' ∧ (l.foldl relaxStep (inDeg, heap)).1.getD v 0 = 0)) ∧
    (l.foldl relaxStep (inDeg, heap)).1.sum + l.length = inDeg.sum ∧
    (l.foldl relaxStep (inDeg, heap)).2.length ≤ heap.length + l.length := by
  intro l
  induction l with
  | nil =>
    intro inDeg heap hlen hdeg hnodup hheap _
    refine ⟨hlen, ?_, hnodup, hheap, rfl, by simp⟩
    intro v hv
    have := hdeg v hv
    simpa using this
  | cons w l' ih =>
    intro inDeg heap hlen hdeg hnodup hheap hl
    have hw : w < g.n := (hl w (List.mem_cons_self w l')).1
    have hwo : w ∉ order' := (hl w (List.mem_cons_self w l')).2
    have hwlen : w < inDeg.length := by omega
    have hcnt : inDeg.getD w 0 = realDeg g order' w + l'.count w + 1 := by
      have := hdeg w hw
      rw [List.count_cons_self] at this
      omega
    have hstep : (w :: l').foldl relaxStep (inDeg, heap) =
        l'.foldl relaxStep (relaxStep (inDeg, heap) w) := List.foldl_cons _ _
    have hrelax : relaxStep (inDeg, heap) w =
        (inDeg.set w (inDeg.getD w 0 - 1),
          if inDeg.getD w 0 - 1 = 0 then heap ++ [w] else heap) := rfl
    have hdeg' : ∀ v, v < g.n → (inDeg.set w (inDeg.getD w 0 - 1)).getD v 0 =
        realDeg g order' v + l'.count v := by
      intro v hv
      by_cases hvw : v = w
      · subst hvw
        rw [getD_nat_set_self _ _ hwlen]
        omega
      · rw [getD_nat_set_ne _ _ _ _ hvw]
        have := hdeg v hv
        rw [List.count_cons_of_ne hvw] at this
        exact this
    have hlen' : (inDeg.set w (inDeg.getD w 0 - 1)).length = g.n := by
      rw [List.length_set]; exact hlen
    have hsum : (inDeg.set w (inDeg.getD w 0 - 1)).sum + 1 = inDeg.sum :=
      sum_set_sub_one inDeg w hwlen (by omega)
    by_cases hd : inDeg.getD w 0 - 1 = 0
    · -- the decrement empties `w`'s in-degree: push it
      have hwheap : w ∉ heap := by
        intro hmem
        have := (hheap w).mp hmem
        omega
      have hnodup' : (heap ++ [w]).Nodup := by
        rw [List.nodup_append]
        exact ⟨hnodup, List.nodup_singleton w, fun x hx hx' => by
          rcases List.mem_singleton.mp hx' with rfl
          exact hwheap hx⟩
      have hheap' : ∀ v, v ∈ heap ++ [w] ↔
          (v < g.n ∧ v ∉ order' ∧ (inDeg.set w (inDeg.getD w 0 - 1)).getD v 0 = 0) := by
        intro v
        by_cases hvw : v = w
        · subst hvw
          constructor
          · intro _
            exact ⟨hw, hwo, by rw [getD_nat_set_self _ _ hwlen]; exact hd⟩
          · intro _
            exact List.mem_append.mpr (Or.inr (List.mem_singleton.mpr rfl))
        · constructor
          · intro hmem
            rcases List.mem_append.mp hmem with hx | hx
            · have := (hheap v).mp hx
              exact ⟨this.1, this.2.1, by rw [getD_nat_set_ne _ _ _ _ hvw]; exact this.2.2⟩
            · exact absurd (List.mem_singleton.mp hx) hvw
          · rintro ⟨h1, h2, h3⟩
            rw [getD_nat_set_ne _ _ _ _ hvw] at h3
            exact List.mem_append.mpr (Or.inl ((hheap v).mpr ⟨h1, h2, h3⟩))
      have hrw : relaxStep (inDeg, heap) w =
          (inDeg.set w (inDeg.getD w 0 - 1), heap ++ [w]) := by
        rw [hrelax, if_pos hd]
      rw [hstep, hrw]
      obtain ⟨c1, c2, c3, c4, c5, c6⟩ := ih (inDeg.set w (inDeg.getD w 0 - 1))
        (heap ++ [w]) hlen' hdeg' hnodup' hheap'
        (fun x hx => hl x (List.mem_cons_of_mem w hx))
      refine ⟨c1, c2, c3, c4, ?_, ?_⟩
      · rw [List.length_cons]
        omega
      · rw [List.length_cons]
        have : (heap ++ [w]).length = heap.length + 1 := by simp
        omega
    · -- the in-degree is still positive: heap unchanged
      have hheap' : ∀ v, v ∈ heap ↔
          (v < g.n ∧ v ∉ order' ∧ (inDeg.set w (inDeg.getD w 0 - 1)).getD v 0 = 0) := by
        intro v
        by_cases hvw : v = w
        · subst hvw
          constructor
          · intro hmem
            have := (hheap v).mp hmem
            omega
          · rintro ⟨_, _, h3⟩
            rw [getD_nat_set_self _ _ hwlen] at h3
            exact absurd h3 hd
        · constructor
          · intro hmem
            have := (hheap v).mp hmem
            exact ⟨this.1, this.2.1, by rw [getD_nat_set_ne _ _ _ _ hvw]; exact this.2.2⟩
          · rintro ⟨h1, h2, h3⟩
            rw [getD_nat_set_ne _ _ _ _ hvw] at h3
            exact (hheap v).mpr ⟨h1, h2, h3⟩
      have hrw : relaxStep (inDeg, heap) w =
          (inDeg.set w (inDeg.getD w 0 - 1), heap) := by
        rw [hrelax, if_neg hd]
      rw [hstep, hrw]
      obtain ⟨c1, c2, c3, c4, c5, c6⟩ := ih (inDeg.set w (inDeg.getD w 0 - 1))
        heap hlen' hdeg' hnodup hheap'
        (fun x hx => hl x (List.mem_cons_of_mem w hx))
      refine ⟨c1, c2, c3, c4, ?_, ?_⟩
      · rw [List.length_cons]
        omega
      · rw [List.length_cons]
        omega

/-- Master invariant lemma for the Kahn loop: the emitted order extends the
accumulator, is duplicate-free, in range, respects all edges, emits at every
position the minimum of the then-ready set, and leaves no ready node
unprocessed. -/
lemma kahnLoop_spec (g : DiGraph) (hwf : WF g) :
    ∀ (fuel : Nat) (inDeg heap order : List Nat),
    inDeg.length = g.n →
    (∀ v, v < g.n → inDeg.getD v 0 = realDeg g order v) →
    heap.Nodup →
    (∀ v, v ∈ heap ↔ Ready g order v) →
    order.Nodup →
    (∀ v ∈ order, v < g.n) →
    EdgeOK g order →
    heap.length + inDeg.sum ≤ fuel →
    (∃ t, kahnLoop g fuel inDeg heap order = order ++ t) ∧
    (kahnLoop g fuel inDeg heap order).Nodup ∧
    (∀ v ∈ kahnLoop g fuel inDeg heap order, v < g.n) ∧
    EdgeOK g (kahnLoop g fuel inDeg heap order) ∧
    (∀ i (hi : i < (kahnLoop g fuel inDeg heap order).length), order.length ≤ i →
      (readyList g ((kahnLoop g fuel inDeg heap order).take i)).min? =
        some ((kahnLoop g fuel inDeg heap order).get ⟨i, hi⟩)) ∧
    (∀ v, ¬ Ready g (kahnLoop g fuel inDeg heap order) v) := by
  intro fuel
  induction fuel with
  | zero =>
    intro inDeg heap order hlen hdeg hnodup hheap hon hor hok hfuel
    have hfinal : kahnLoop g 0 inDeg heap order = order := rfl
    rw [hfinal]
    have hempty : heap = [] := by
      rw [← List.length_eq_zero]
      omega
    refine ⟨⟨[], by simp⟩, hon, hor, hok, ?_, ?_⟩
    · intro i hi hle
      omega
    · intro v hv
      have : v ∈ heap := (hheap v).mpr hv
      rw [hempty] at this
      exact (List.not_mem_nil v) this
  | succ fuel ih =>
    intro inDeg heap order hlen hdeg hnodup hheap hon hor hok hfuel
    cases hmin : heap.min? with
    | none =>
      have hempty : heap = [] := List.min?_eq_none_iff.mp hmin
      subst hempty
      have hfinal : kahnLoop g (fuel + 1) inDeg [] order = order := rfl
      rw [hfinal]
      refine ⟨⟨[], by simp⟩, hon, hor, hok, ?_, ?_⟩
      · intro i hi hle
        omega
      · intro v hv
        exact (List.not_mem_nil v) ((hheap v).mpr hv)
    | some u =>
      obtain ⟨humem, hule⟩ := nat_min?_eq_some_iff.mp hmin
      obtain ⟨hun, huo, hupred⟩ := (hheap u).mp humem
      have hfinal : kahnLoop g (fuel + 1) inDeg heap order =
          kahnLoop g fuel ((successors_slice g u).foldl relaxStep (inDeg, heap.erase u)).1
            ((successors_slice g u).foldl relaxStep (inDeg, heap.erase u)).2
            (order ++ [u]) := by
        simp only [kahnLoop, hmin]
      have huo' : u ∈ order ++ [u] :=
        List.mem_append.mpr (Or.inr (List.mem_singleton.mpr rfl))
      -- hypotheses of the fold lemma
      have hdeg2 : ∀ v, v < g.n → inDeg.getD v 0 =
          realDeg g (order ++ [u]) v + (successors_slice g u).count v := by
        intro v hv
        rw [hdeg v hv, realDeg_append g order u huo v, count_pred_eq_count_succ]
      have hheapE : ∀ v, v ∈ heap.erase u ↔
          (v < g.n ∧ v ∉ order ++ [u] ∧ inDeg.getD v 0 = 0) := by
        intro v
        rw [List.Nodup.mem_erase_iff hnodup]
        constructor
        · rintro ⟨hne, hv⟩
          obtain ⟨r1, r2, r3⟩ := (hheap v).mp hv
          refine ⟨r1, ?_, ?_⟩
          · intro hmem
            rcases List.mem_append.mp hmem with h | h
            · exact r2 h
            · exact hne (List.mem_singleton.mp h)
          · rw [hdeg v r1]
            exact (realDeg_zero_iff g order v).mpr r3
        · rintro ⟨h1, h2, h3⟩
          have hne : v ≠ u := fun he => h2 (he ▸ huo')
          refine ⟨hne, (hheap v).mpr ⟨h1, ?_, ?_⟩⟩
          · exact fun hm => h2 (List.mem_append.mpr (Or.inl hm))
          · rw [hdeg v h1] at h3
            exact (realDeg_zero_iff g order v).mp h3
      have hsuccs : ∀ w ∈ successors_slice g u, w < g.n ∧ w ∉ order ++ [u] := by
        intro w hw
        have hedge : (u, w) ∈ g.edges := (mem_successors_slice g u w).mp hw
        refine ⟨(hwf _ hedge).2, ?_⟩
        intro hmem
        rcases List.mem_append.mp hmem with hmo | hmu
        · obtain ⟨⟨i, hi⟩, hget⟩ := List.mem_iff_get.mp hmo
          have hpred : u ∈ predecessors_slice g (order.get ⟨i, hi⟩) := by
            rw [hget]
            exact (mem_predecessors_slice g w u).mpr hedge
          exact huo (List.take_subset i order (hok i hi u hpred))
        · have hwu : w = u := List.mem_singleton.mp hmu
          subst hwu
          exact huo (hupred w ((mem_predecessors_slice g w w).mpr hedge))
      obtain ⟨c1, c2, c3, c4, c5, c6⟩ := relax_fold_spec g (order ++ [u])
        (successors_slice g u) inDeg (heap.erase u) hlen hdeg2
        (List.Nodup.erase u hnodup) hheapE hsuccs
      -- loop invariants at the next state
      have hI4 : ∀ v, v ∈ ((successors_slice g u).foldl relaxStep (inDeg, heap.erase u)).2 ↔
          Ready g (order ++ [u]) v := by
        intro v
        rw [c4 v]
        constructor
        · rintro ⟨h1, h2, h3⟩
          rw [c2 v h1] at h3
          exact ⟨h1, h2, (realDeg_zero_iff g (order ++ [u]) v).mp h3⟩
        · rintro ⟨h1, h2, h3⟩
          exact ⟨h1, h2, by rw [c2 v h1]; exact (realDeg_zero_iff g (order ++ [u]) v).mpr h3⟩
      have hI5 : (order ++ [u]).Nodup := by
        rw [List.nodup_append]
        exact ⟨hon, List.nodup_singleton u, fun x hx hx' => by
          rcases List.mem_singleton.mp hx' with rfl
          exact huo hx⟩
      have hI6 : ∀ v ∈ order ++ [u], v < g.n := by
        intro v hv
        rcases List.mem_append.mp hv with h | h
        · exact hor v h
        · rcases List.mem_singleton.mp h with rfl
          exact hun
      have hlen' : (order ++ [u]).length = order.length + 1 := by simp
      have htake_lt : ∀ i, i ≤ order.length → (order ++ [u]).take i = order.take i := by
        intro i hile
        rw [List.take_append_eq_append_take]
        have : i - order.length = 0 := by omega
        rw [this, List.take_zero, List.append_nil]
      have hI7 : EdgeOK g (order ++ [u]) := by
        intro i hi u' hu'
        rw [hlen'] at hi
        rcases Nat.lt_or_ge i order.length with hilt | hige
        · have hget : (order ++ [u]).get ⟨i, by omega⟩ = order.get ⟨i, hilt⟩ := by
            rw [List.get_eq_getElem, List.get_eq_getElem]
            exact List.getElem_append_left hilt
          rw [hget] at hu'
          rw [htake_lt i (by omega)]
          exact hok i hilt u' hu'
        · have hieq : i = order.length := by omega
          subst hieq
          have hget : (order ++ [u]).get ⟨order.length, by omega⟩ = u := by
            rw [List.get_eq_getElem]
            exact List.getElem_concat_length order u order.length rfl _
          rw [hget] at hu'
          rw [htake_lt order.length (le_refl _), List.take_length]
          exact hupred u' hu'
      have herase_len : (heap.erase u).length = heap.length - 1 :=
        List.length_erase_of_mem humem
      have hpos : 0 < heap.length := List.length_pos.mpr (List.ne_nil_of_mem humem)
      have hfuel' : ((successors_slice g u).foldl relaxStep (inDeg, heap.erase u)).2.length +
          ((successors_slice g u).foldl relaxStep (inDeg, heap.erase u)).1.sum ≤ fuel := by
        omega
      obtain ⟨d1, d2, d3, d4, d5, d6⟩ := ih
        ((successors_slice g u).foldl relaxStep (inDeg, heap.erase u)).1
        ((successors_slice g u).foldl relaxStep (inDeg, heap.erase u)).2
        (order ++ [u]) c1 c2 c3 hI4 hI5 hI6 hI7 hfuel'
      rw [hfinal]
      obtain ⟨t, ht⟩ := d1
      refine ⟨⟨u :: t, by rw [ht, List.append_assoc]; rfl⟩, d2, d3, d4, ?_, d6⟩
      intro i hi hle
      rcases Nat.lt_or_ge i (order.length + 1) with hilt | hige
      · have hieq : i = order.length := by omega
        subst hieq
        have htake : (kahnLoop g fuel
            ((successors_slice g u).foldl relaxStep (inDeg, heap.erase u)).1
            ((successors_slice g u).foldl relaxStep (inDeg, heap.erase u)).2
            (order ++ [u])).take order.length = order := by
          rw [ht, List.append_assoc, List.take_append_eq_append_take,
            Nat.sub_self, List.take_zero, List.append_nil, List.take_length]
        have hget : (kahnLoop g fuel
            ((successors_slice g u).foldl relaxStep (inDeg, heap.erase u)).1
            ((successors_slice g u).foldl relaxStep (inDeg, heap.erase u)).2
            (order ++ [u])).get ⟨order.length, hi⟩ = u := by
          have hopt : (kahnLoop g fuel
              ((successors_slice g u).foldl relaxStep (inDeg, heap.erase u)).1
              ((successors_slice g u).foldl relaxStep (inDeg, heap.erase u)).2
              (order ++ [u]))[order.length]? = some u := by
            rw [ht, List.append_assoc,
              List.getElem?_append_right (le_refl order.length)]
            simp
          have hsome := List.getElem?_eq_getElem hi
          rw [hopt] at hsome
          rw [List.get_eq_getElem]
          exact (Option.some.inj hsome).symm
        rw [htake, hget]
        have hsame : ∀ x, x ∈ readyList g order ↔ x ∈ heap := by
          intro x
          rw [mem_readyList]
          exact (hheap x).symm
        exact (nat_min?_congr hsame).trans hmin
      · exact d5 i hi (by rw [hlen']; omega)

lemma sum_map_add (xs : List Nat) (f h : Nat → Nat) :
    (xs.map (fun x => f x + h x)).sum = (xs.map f).sum + (xs.map h).sum := by
  induction xs with
  | nil => rfl
  | cons a t ih =>
    simp only [List.map_cons, List.sum_cons, ih]
    omega

lemma sum_map_ite_range (n a : Nat) :
    ((List.range n).map (fun i => if a = i then 1 else 0)).sum =
      if a < n then 1 else 0 := by
  induction n with
  | zero => simp
  | succ n ih =>
    rw [List.range_succ, List.map_append, List.sum_append, ih]
    simp only [List.map_cons, List.map_nil, List.sum_cons, List.sum_nil]
    rcases Nat.lt_trichotomy a n with h | h | h
    · rw [if_pos h, if_neg (by omega), if_pos (by omega)]
      omega
    · subst h
      rw [if_neg (lt_irrefl a), if_pos rfl, if_pos (by omega)]
      omega
    · rw [if_neg (by omega), if_neg (by omega), if_neg (by omega)]
      omega

lemma in_degree_eq_countP (g : DiGraph) (v : Nat) :
    in_degree g v = g.edges.countP (fun e => decide (e.2 = v)) := by
  unfold in_degree predecessors_slice
  rw [List.length_map, ← List.countP_eq_length_filter]

lemma sum_in_degree_le (g : DiGraph) :
    ((List.range g.n).map (fun i => in_degree g i)).sum ≤ g.edges.length := by
  have h : ∀ l : List (Nat × Nat),
      ((List.range g.n).map (fun i => l.countP (fun e => decide (e.2 = i)))).sum ≤
        l.length := by
    intro l
    induction l with
    | nil => simp
    | cons e t ih =>
      have hsplit : (List.range g.n).map
          (fun i => (e :: t).countP (fun x => decide (x.2 = i))) =
          (List.range g.n).map
            (fun i => t.countP (fun x => decide (x.2 = i)) + if e.2 = i then 1 else 0) := by
        refine List.map_congr_left fun i _ => ?_
        rw [List.countP_cons]
        by_cases he : e.2 = i
        · rw [if_pos he, if_pos (by simp [he])]
        · rw [if_neg he, if_neg (by simp [he])]
      rw [hsplit, sum_map_add]
      have hone := sum_map_ite_range g.n e.2
      rw [List.length_cons]
      by_cases hin : e.2 < g.n
      · rw [if_pos hin] at hone
        omega
      · rw [if_neg hin] at hone
        omega
  have hmap : (List.range g.n).map (fun i => in_degree g i) =
      (List.range g.n).map (fun i => g.edges.countP (fun e => decide (e.2 = i))) :=
    List.map_congr_left fun i _ => in_degree_eq_countP g i
  rw [hmap]
  exact h g.edges

lemma topological_sort_eq (g : DiGraph) (hn : g.n ≠ 0) :
    topological_sort g =
      if (kahnRun g).length = g.n then some (kahnRun g) else none := by
  unfold topological_sort kahnRun
  rw [if_neg hn]

lemma kahnRun_spec (g : DiGraph) (hwf : WF g) :
    (kahnRun g).Nodup ∧ (∀ v ∈ kahnRun g, v < g.n) ∧ EdgeOK g (kahnRun g) ∧
    (∀ i (hi : i < (kahnRun g).length),
      (readyList g ((kahnRun g).take i)).min? = some ((kahnRun g).get ⟨i, hi⟩)) ∧
    (∀ v, ¬ Ready g (kahnRun g) v) := by
  have hdeg0 : ∀ v, v < g.n →
      ((List.range g.n).map (fun i => in_degree g i)).getD v 0 = realDeg g [] v := by
    intro v hv
    rw [getD_map_range _ _ _ hv, realDeg_nil]
  have hheap0 : ∀ v, v ∈ (List.range g.n).filter
      (fun i => ((List.range g.n).map (fun i => in_degree g i)).getD i 0 = 0) ↔
      Ready g [] v := by
    intro v
    rw [List.mem_filter, List.mem_range]
    constructor
    · rintro ⟨hv, hz⟩
      rw [decide_eq_true_eq, getD_map_range _ _ _ hv] at hz
      refine ⟨hv, List.not_mem_nil v, ?_⟩
      intro u hu
      have hnil : predecessors_slice g v = [] := List.length_eq_zero.mp hz
      rw [hnil] at hu
      exact absurd hu (List.not_mem_nil u)
    · rintro ⟨h1, _, h3⟩
      refine ⟨h1, ?_⟩
      rw [decide_eq_true_eq, getD_map_range _ _ _ h1]
      have hnil : predecessors_slice g v = [] :=
        List.eq_nil_iff_forall_not_mem.mpr (fun u hu => List.not_mem_nil u (h3 u hu))
      show (predecessors_slice g v).length = 0
      rw [hnil]
      rfl
  have hfuel0 : ((List.range g.n).filter
      (fun i => ((List.range g.n).map (fun i => in_degree g i)).getD i 0 = 0)).length +
      ((List.range g.n).map (fun i => in_degree g i)).sum ≤ g.n + g.edges.length := by
    have h1 := List.length_filter_le
      (fun i => decide (((List.range g.n).map (fun i => in_degree g i)).getD i 0 = 0))
      (List.range g.n)
    rw [List.length_range] at h1
    have h2 := sum_in_degree_le g
    omega
  obtain ⟨d1, d2, d3, d4, d5, d6⟩ := kahnLoop_spec g hwf (g.n + g.edges.length)
    ((List.range g.n).map (fun i => in_degree g i))
    ((List.range g.n).filter
      (fun i => ((List.range g.n).map (fun i => in_degree g i)).getD i 0 = 0)) []
    (by rw [List.length_map, List.length_range]) hdeg0
    (List.Nodup.filter _ (List.nodup_range _)) hheap0 List.nodup_nil (by simp)
    (by intro i hi; simp at hi) hfuel0
  exact ⟨d2, d3, d4, fun i hi => d5 i hi (Nat.zero_le i), d6⟩

lemma topological_sort_some_spec (g : DiGraph) (hwf : WF g) (ord : List Nat)
    (hord : topological_sort g = some ord) :
    ord.Nodup ∧ (∀ v ∈ ord, v < g.n) ∧ ord.length = g.n ∧ EdgeOK g ord ∧
    (∀ i (hi : i < ord.length),
      (readyList g (ord.take i)).min? = some (ord.get ⟨i, hi⟩)) := by
  by_cases hn : g.n = 0
  · unfold topological_sort at hord
    rw [if_pos hn] at hord
    have hord' : ([] : List Nat) = ord := Option.some.inj hord
    subst hord'
    refine ⟨List.nodup_nil, by simp, by simp [hn], ?_, ?_⟩
    · intro i hi
      simp at hi
    · intro i hi
      simp at hi
  · rw [topological_sort_eq g hn] at hord
    by_cases hlen : (kahnRun g).length = g.n
    · rw [if_pos hlen] at hord
      have hord' : kahnRun g = ord := Option.some.inj hord
      subst hord'
      obtain ⟨e1, e2, e3, e4, e5⟩ := kahnRun_spec g hwf
      exact ⟨e1, e2, hlen, e3, e4⟩
    · rw [if_neg hlen] at hord
      exact absurd hord (by simp)

lemma topological_sort_none_iff (g : DiGraph) (hwf : WF g) :
    topological_sort g = none ↔ HasCycle g := by
  constructor
  · intro hnone
    by_cases hn : g.n = 0
    · unfold topological_sort at hnone
      rw [if_pos hn] at hnone
      exact absurd hnone (by simp)
    · rw [topological_sort_eq g hn] at hnone
      by_cases hlen : (kahnRun g).length = g.n
      · rw [if_pos hlen] at hnone
        exact absurd hnone (by simp)
      · obtain ⟨e1, e2, _, _, e5⟩ := kahnRun_spec g hwf
        have hle : (kahnRun g).length ≤ g.n := length_le_of_nodup_range _ _ e1 e2
        have hlt : (kahnRun g).length < g.n := by omega
        classical
        refine cycle_of_no_source g
          ((Finset.range g.n).filter (fun v => v ∉ kahnRun g)) ?_ ?_
        · by_contra hne
          rw [Finset.not_nonempty_iff_eq_empty, Finset.filter_eq_empty_iff] at hne
          have hsub : Finset.range g.n ⊆ (kahnRun g).toFinset := by
            intro v hv
            rw [List.mem_toFinset]
            exact not_not.mp (hne hv)
          have := Finset.card_le_card hsub
          rw [Finset.card_range, List.toFinset_card_of_nodup e1] at this
          omega
        · intro w hw
          rw [Finset.mem_filter, Finset.mem_range] at hw
          obtain ⟨hwn, hwnot⟩ := hw
          have hnr := e5 w
          unfold Ready at hnr
          push_neg at hnr
          obtain ⟨u, hu, hunot⟩ := hnr hwn hwnot
          have hedge : (u, w) ∈ g.edges := (mem_predecessors_slice g w u).mp hu
          refine ⟨u, ?_, hedge⟩
          rw [Finset.mem_filter, Finset.mem_range]
          exact ⟨(hwf _ hedge).1, hunot⟩
  · intro hcyc
    cases hsort : topological_sort g with
    | none => rfl
    | some ord =>
      exfalso
      obtain ⟨e1, e2, e3, e4, _⟩ := topological_sort_some_spec g hwf ord hsort
      obtain ⟨v, hv⟩ := hcyc
      have hlt : ∀ a b, EdgeStep g a b → ord.indexOf a < ord.indexOf b := by
        intro a b hab
        have hbn : b < g.n := (hwf _ hab).2
        have hbmem : b ∈ ord := mem_of_nodup_length_range ord g.n e1 e2 e3 b hbn
        have hjlt : ord.indexOf b < ord.length := List.indexOf_lt_length.mpr hbmem
        have hpred : a ∈ predecessors_slice g (ord.get ⟨ord.indexOf b, hjlt⟩) := by
          rw [List.indexOf_get hjlt]
          exact (mem_predecessors_slice g b a).mpr hab
        exact indexOf_lt_of_mem_take ord _ a (e4 (ord.indexOf b) hjlt a hpred)
      have hmono : ∀ a b, Relation.TransGen (EdgeStep g) a b →
          ord.indexOf a < ord.indexOf b := by
        intro a b h
        induction h with
        | single h1 => exact hlt _ _ h1
        | tail _ h2 ihh => exact lt_trans ihh (hlt _ _ h2)
      exact absurd (hmono v v hv) (lt_irrefl _)

/-- C1: on a well-formed graph, `topological_sort` returns a permutation of
all node indices `[0, n)` in which, for every edge `(u, v)`, the position of
`u` is strictly less than the position of `v`; and it returns `None` exactly
when the graph contains a cycle (so on every DAG it succeeds). -/
theorem topological_sort_correct (g : DiGraph) (hwf : WF g) :
    (∀ ord, topological_sort g = some ord →
      ord.Perm (List.range g.n) ∧
      ∀ u v, (u, v) ∈ g.edges →
        ∀ i j (hi : i < ord.length) (hj : j < ord.length),
          ord.get ⟨i, hi⟩ = u → ord.get ⟨j, hj⟩ = v → i < j) ∧
    (topological_sort g = none ↔ HasCycle g) := by
  refine ⟨?_, topological_sort_none_iff g hwf⟩
  intro ord hord
  obtain ⟨e1, e2, e3, e4, _⟩ := topological_sort_some_spec g hwf ord hord
  constructor
  · rw [List.perm_ext_iff_of_nodup e1 (List.nodup_range g.n)]
    intro v
    rw [List.mem_range]
    exact ⟨fun h => e2 v h, fun h => mem_of_nodup_length_range ord g.n e1 e2 e3 v h⟩
  · intro u v huv i j hi hj hgi hgj
    have hpred : u ∈ predecessors_slice g (ord.get ⟨j, hj⟩) := by
      rw [hgj]
      exact (mem_predecessors_slice g v u).mpr huv
    obtain ⟨i', hi', hij', hget'⟩ := exists_get_of_mem_take ord j u (e4 j hj u hpred)
    have hfin : (⟨i', hi'⟩ : Fin ord.length) = ⟨i, hi⟩ :=
      (List.Nodup.get_inj_iff e1).mp (by rw [hget', hgi])
    have hii : i' = i := congrArg Fin.val hfin
    omega

/-- Witness for C1 at the diamond graph `0→1, 0→2, 1→3, 2→3`. -/
theorem topological_sort_correct_witness :
    topological_sort ⟨4, [(0, 1), (0, 2), (1, 3), (2, 3)]⟩ = none ↔
      HasCycle ⟨4, [(0, 1), (0, 2), (1, 3), (2, 3)]⟩ :=
  (topological_sort_correct ⟨4, [(0, 1), (0, 2), (1, 3), (2, 3)]⟩ (by decide)).2

/-- C2: on a well-formed graph with a cycle (including a single self-loop),
the detailed result carries an empty order — never a truncated prefix — and a
false `is_dag` flag, and `is_dag` is false; moreover `is_dag` is true exactly
when `topological_sort` succeeds. -/
theorem topological_sort_cycle_result (g : DiGraph) (hwf : WF g) :
    (HasCycle g → (topological_sort_result g).order = [] ∧
      (topological_sort_result g).is_dag = false ∧ is_dag g = false) ∧
    (is_dag g = true ↔ ∃ ord, topological_sort g = some ord) := by
  constructor
  · intro hcyc
    have hnone : topological_sort g = none := (topological_sort_none_iff g hwf).mpr hcyc
    unfold topological_sort_result is_dag
    rw [hnone]
    exact ⟨rfl, rfl, rfl⟩
  · unfold is_dag
    exact Option.isSome_iff_exists

/-- Witness for C2 at the one-node self-loop graph. -/
theorem topological_sort_cycle_result_witness :
    (topological_sort_result ⟨1, [(0, 0)]⟩).order = [] ∧
      (topological_sort_result ⟨1, [(0, 0)]⟩).is_dag = false ∧
      is_dag ⟨1, [(0, 0)]⟩ = false :=
  (topological_sort_cycle_result ⟨1, [(0, 0)]⟩ (by decide)).1
    ⟨0, Relation.TransGen.single (List.mem_singleton.mpr rfl)⟩

/-- C3: the smallest-index tie-break — every element the sorter emits is the
minimum of the set of nodes that are ready (unprocessed with all predecessors
already emitted) at that step, so the output is the unique order for this
rule; determinism across invocations is immediate since the embedded sorter
is a pure function of the graph. -/
theorem topological_sort_emits_min_ready (g : DiGraph) (hwf : WF g)
    (ord : List Nat) (hord : topological_sort g = some ord) :
    ∀ i (hi : i < ord.length),
      (readyList g (ord.take i)).min? = some (ord.get ⟨i, hi⟩) := by
  obtain ⟨_, _, _, _, e5⟩ := topological_sort_some_spec g hwf ord hord
  exact e5

/-- Witness for C3: in the graph `0→1, 2→1` the nodes 0 and 2 are ready before
node 1, the output is `[0, 2, 1]`, and position 1 holds the minimum (2) of the
then-ready set. -/
theorem topological_sort_emits_min_ready_witness :
    (readyList ⟨3, [(0, 1), (2, 1)]⟩ (([0, 2, 1] : List Nat).take 1)).min? =
      some (([0, 2, 1] : List Nat).get ⟨1, by decide⟩) :=
  topological_sort_emits_min_ready ⟨3, [(0, 1), (2, 1)]⟩ (by decide) [0, 2, 1]
    (by decide) 1 (by decide)

/- sanity checks on the scenarios of spec §8 -/

example : topological_sort ⟨4, [(0,1),(0,2),(1,3),(2,3)]⟩ = some [0,1,2,3] := by decide

example : topological_sort ⟨3, [(0,1),(1,2),(2,0)]⟩ = none := by decide

example : reachable_from ⟨4, [(0,1),(0,2),(1,3),(2,3)]⟩ 0 = [0,1,2,3] := by decide

example : reachable_to ⟨4, [(0,1),(0,2),(1,3),(2,3)]⟩ 3 = [3,1,2,0] := by decide

example : actionable_nodes ⟨4, [(0,1),(0,2),(1,3),(2,3)]⟩ [true,false,false,false] = [1,2] := by
  decide

example : open_blocker_count ⟨4, [(0,1),(0,2),(1,3),(2,3)]⟩ 3 [true,false,false,false] = 2 := by
  decide

example : reachable_from ⟨3, [(0,1),(1,2),(2,0)]⟩ 0 = [0,1,2] := by decide

example : topological_sort ⟨1, [(0,0)]⟩ = none := by decide

example : is_actionable ⟨1, []⟩ 5 [] = true := by decide

example : topological_sort ⟨3, [(0,1),(2,1)]⟩ = some [0,2,1] := by decide
